import Mathlib

/-!
Shallow embedding of the `like-a-crime` audio pipeline (Rust sources under
`src/`), together with theorems settling the specification claims.

Conventions of the embedding:
- `f32` samples, frequencies and timestamps are modelled by `ℚ` with exact
  arithmetic; transcendental library calls of the source (`cos`, `log2`,
  `sqrt`, complex `norm`) are passed in as explicit oracle parameters, so
  every theorem quantifies over the numeric approximation and every concrete
  evaluation instantiates the oracle with the exact values the source would
  compute at the inputs used.
- Rust panics (out-of-range slice indexing, `step_by(0)`) are modelled by
  `Option`, `none` standing for the panic.
- `std::time::Duration` is modelled as a rational number of seconds.
-/

/-! ### Result Sequencer (`src/aux.rs`)

`AnalysisResult` is ordered by timestamp only (`Ord for AnalysisResult`,
aux.rs:30-34).  The `BinaryHeap<Reverse<AnalysisResult>>` of `AudioOutput` is
modelled by its abstract state: a list kept sorted by ascending timestamp,
`heapPush` inserting in order and `drainUpTo` mirroring the peek/pop loop of
`check_and_display_analysis` (aux.rs:223-251). -/

structure AnalysisResult where
  timestamp : ℚ
  note : String
deriving DecidableEq

/-- `results.push(Reverse(result))`: insertion into the min-heap, modelled as
ordered insertion into the timestamp-sorted list. -/
def heapPush (r : AnalysisResult) : List AnalysisResult → List AnalysisResult
  | [] => [r]
  | x :: xs =>
    if r.timestamp ≤ x.timestamp then r :: x :: xs else x :: heapPush r xs

/-- The loop of `check_and_display_analysis` (aux.rs:231-250): while the
minimal queued result has `timestamp <= current_time`, pop it; return the
popped results in pop order together with the remaining queue. -/
def drainUpTo (currentTime : ℚ) : List AnalysisResult →
    List AnalysisResult × List AnalysisResult
  | [] => ([], [])
  | x :: xs =>
    if x.timestamp ≤ currentTime then
      let rest := drainUpTo currentTime xs
      (x :: rest.1, rest.2)
    else
      ([], x :: xs)

/-- The queue is sorted by ascending timestamp. -/
def TimestampSorted (q : List AnalysisResult) : Prop :=
  q.Pairwise (fun a b => a.timestamp ≤ b.timestamp)

instance (q : List AnalysisResult) : Decidable (TimestampSorted q) := by
  unfold TimestampSorted; infer_instance

lemma heapPush_mem (r : AnalysisResult) (q : List AnalysisResult)
    (b : AnalysisResult) : b ∈ heapPush r q ↔ b = r ∨ b ∈ q := by
  induction q with
  | nil => simp [heapPush]
  | cons x xs ih =>
    by_cases h : r.timestamp ≤ x.timestamp
    · simp [heapPush, if_pos h, or_comm, or_assoc, or_left_comm]
    · simp only [heapPush, if_neg h, List.mem_cons, ih]
      tauto

lemma heapPush_sorted (r : AnalysisResult) (q : List AnalysisResult)
    (hq : TimestampSorted q) : TimestampSorted (heapPush r q) := by
  induction q with
  | nil => simp [heapPush, TimestampSorted]
  | cons x xs ih =>
    unfold TimestampSorted at hq ⊢
    rw [List.pairwise_cons] at hq
    by_cases h : r.timestamp ≤ x.timestamp
    · simp only [heapPush, if_pos h, List.pairwise_cons]
      refine ⟨?_, ?_⟩
      · intro b hb
        rcases List.mem_cons.mp hb with hb' | hb'
        · exact hb' ▸ h
        · exact le_trans h (hq.1 b hb')
      · exact hq
    · simp only [heapPush, if_neg h, List.pairwise_cons]
      push_neg at h
      constructor
      · intro b hb
        rcases (heapPush_mem r xs b).mp hb with hb' | hb'
        · exact hb' ▸ le_of_lt h
        · exact hq.1 b hb'
      · exact ih hq.2

lemma drainUpTo_of_sorted (T : ℚ) (q : List AnalysisResult)
    (hq : TimestampSorted q) :
    drainUpTo T q =
      (q.filter (fun r => r.timestamp ≤ T),
       q.filter (fun r => T < r.timestamp)) := by
  induction q with
  | nil => simp [drainUpTo]
  | cons x xs ih =>
    unfold TimestampSorted at hq
    rw [List.pairwise_cons] at hq
    by_cases h : x.timestamp ≤ T
    · simp only [drainUpTo, if_pos h, ih hq.2, List.filter_cons,
        decide_eq_true_eq]
      simp [h, not_lt.mpr h]
    · have hall : ∀ b ∈ xs, T < b.timestamp := fun b hb =>
        lt_of_lt_of_le (not_le.mp h) (hq.1 b hb)
      have h1 : xs.filter (fun r => r.timestamp ≤ T) = [] := by
        rw [List.filter_eq_nil_iff]
        intro b hb
        simpa using not_le.mpr (hall b hb)
      have h2 : xs.filter (fun r => T < r.timestamp) = xs := by
        rw [List.filter_eq_self]
        intro b hb
        simpa using hall b hb
      simp only [drainUpTo, if_neg h, List.filter_cons, decide_eq_true_eq]
      simp [h, not_le.mp h, h1, h2]

/-- **C1.** Result Sequencer drain: for any (timestamp-sorted) queue of
`AnalysisResult`s, draining at time `T` pops and returns exactly the queued
results whose timestamp is `≤ T`, in ascending timestamp order, and leaves
the rest queued; concretely, pushing results with timestamps `[5,1,3]` and
draining at `T = 4` returns the timestamps `[1,3]` in that order, a second
drain at `T = 4` returns `[]`, and a drain at `T = 5` then returns `[5]`. -/
theorem C1_result_sequencer_drain (q : List AnalysisResult) (T : ℚ)
    (hq : TimestampSorted q) :
    ((drainUpTo T q).1 = q.filter (fun r => r.timestamp ≤ T) ∧
     TimestampSorted (drainUpTo T q).1 ∧
     (drainUpTo T q).2 = q.filter (fun r => T < r.timestamp)) ∧
    (let q0 := heapPush ⟨3, "c"⟩ (heapPush ⟨1, "b"⟩ (heapPush ⟨5, "a"⟩ []))
     let d1 := drainUpTo 4 q0
     d1.1 = [⟨1, "b"⟩, ⟨3, "c"⟩] ∧
     (drainUpTo 4 d1.2).1 = [] ∧
     (drainUpTo 4 d1.2).2 = [⟨5, "a"⟩] ∧
     (drainUpTo 5 d1.2).1 = [⟨5, "a"⟩] ∧
     (drainUpTo 5 d1.2).2 = []) := by
  have hdrain := drainUpTo_of_sorted T q hq
  refine ⟨⟨?_, ?_, ?_⟩, by decide⟩
  · rw [hdrain]
  · rw [hdrain]
    exact List.Pairwise.filter _ hq
  · rw [hdrain]

theorem C1_result_sequencer_drain_witness :
    TimestampSorted [⟨1, "b"⟩, ⟨3, "c"⟩, ⟨5, "a"⟩] ∧
    (drainUpTo 4 [⟨1, "b"⟩, ⟨3, "c"⟩, ⟨5, "a"⟩]).1
      = ([⟨1, "b"⟩, ⟨3, "c"⟩, ⟨5, "a"⟩] : List AnalysisResult).filter
          (fun r => r.timestamp ≤ 4) :=
  ⟨by decide, (C1_result_sequencer_drain [⟨1, "b"⟩, ⟨3, "c"⟩, ⟨5, "a"⟩] 4
    (by decide)).1.1⟩

/-! ### Playback Engine pause / fade / resume (`src/aux.rs`)

State shared by the output callback and the command mutators of
`AudioOutput` (aux.rs:36-53): the sample ring buffer, the playback clock,
the pause flag and the fade counter.  `fade_duration_samples` is the `D`
below (`(sample_rate * 0.005) as usize`, aux.rs:108). -/

structure AudioState where
  buffer : List ℚ
  current_playback_time : ℚ
  is_paused : Bool
  fade_samples : ℕ
deriving DecidableEq

/-- One output slot of the paused branch of the output callback
(aux.rs:124-134): while the fade counter is below the fade duration, pop a
sample (`0.0` on underrun), scale it by `1 - fade_count / D`, and advance the
fade counter **by 2**; afterwards emit exact silence without touching the
buffer.  Returns (output sample, remaining buffer, new fade counter). -/
def pausedSample (D : ℕ) (buf : List ℚ) (fade : ℕ) : ℚ × List ℚ × ℕ :=
  if fade < D then
    (buf.headD 0 * (1 - (fade : ℚ) / (D : ℚ)), buf.tail, fade + 2)
  else
    (0, buf, fade)

/-- The paused branch of the callback filling `n` output slots
(aux.rs:120-136): iterate `pausedSample`, collecting the emitted samples. -/
def pausedPull (D : ℕ) (buf : List ℚ) (fade : ℕ) :
    ℕ → List ℚ × List ℚ × ℕ
  | 0 => ([], buf, fade)
  | n + 1 =>
    let s := pausedSample D buf fade
    let rest := pausedPull D s.2.1 s.2.2 n
    (s.1 :: rest.1, rest.2)

/-- One output slot of the playing branch (aux.rs:144-153): pop a raw sample
(`0.0` on underrun) and emit it unscaled; the clock advances by
`1 / sample_rate`. -/
def playingSample (sampleRate : ℚ) (buf : List ℚ) (clock : ℚ) :
    ℚ × List ℚ × ℚ :=
  (buf.headD 0, buf.tail, clock + 1 / sampleRate)

/-- `AudioOutput::pause` (aux.rs:253-256): set the pause flag. -/
def pause (s : AudioState) : AudioState :=
  { s with is_paused := true }

/-- `AudioOutput::resume` (aux.rs:258-263): clear the pause flag and reset
the fade counter to zero. -/
def resume (s : AudioState) : AudioState :=
  { s with is_paused := false, fade_samples := 0 }

/-- `AudioOutput::toggle` (aux.rs:265-272): negate the pause flag; when the
new state is playing, reset the fade counter. -/
def toggle (s : AudioState) : AudioState :=
  let p := !s.is_paused
  { s with is_paused := p, fade_samples := if p then s.fade_samples else 0 }

lemma tail_getD (buf : List ℚ) (N : ℕ) : buf.tail.getD N 0 = buf.getD (N + 1) 0 := by
  cases buf <;> simp [List.getD]

lemma pausedPull_get (D : ℕ) :
    ∀ (n : ℕ) (buf : List ℚ) (k N : ℕ), N < n →
      (pausedPull D buf (2 * k) n).1.get? N =
        some (if 2 * (k + N) < D then
          buf.getD N 0 * (1 - ((2 * (k + N) : ℕ) : ℚ) / (D : ℚ)) else 0) := by
  intro n
  induction n with
  | zero => intro buf k N hN; omega
  | succ n ih =>
    intro buf k N hN
    by_cases hf : 2 * k < D
    · cases N with
      | zero =>
        have h0 : 2 * (k + 0) = 2 * k := by omega
        simp only [pausedPull, pausedSample, List.get?_cons_zero, h0]
        rw [if_pos hf, if_pos hf]
        congr 2
        cases buf <;> simp [List.getD]
      | succ N =>
        have hN2 : N < n := by omega
        have h2 : 2 * k + 2 = 2 * (k + 1) := by omega
        simp only [pausedPull, pausedSample, List.get?_cons_succ]
        rw [if_pos hf]
        simp only [h2]
        rw [ih buf.tail (k + 1) N hN2, tail_getD]
        have he : k + 1 + N = k + (N + 1) := by omega
        rw [he]
    · have h1 : ∀ M, ¬ 2 * (k + M) < D := by intro M; omega
      cases N with
      | zero =>
        simp only [pausedPull, pausedSample, List.get?_cons_zero]
        rw [if_neg hf, if_neg (h1 0)]
      | succ N =>
        have hN2 : N < n := by omega
        simp only [pausedPull, pausedSample, List.get?_cons_succ]
        rw [if_neg hf]
        rw [ih buf k N hN2]
        rw [if_neg (h1 N), if_neg (h1 (N + 1))]

/-- **C2 (counterexample).** The claim asserts the Nth popped sample after
pause has multiplier `1 - N/D`.  With fade duration `D = 8` and a buffer of
ones, the code emits `[1, 3/4, 1/2, 1/4, 0, 0, 0, 0]`: the sample at index 3
is `1/4`, which is neither `1 - 3/8` (0-indexed reading) nor `1 - 4/8`
(1-indexed reading), because the fade counter advances by 2 per sample. -/
theorem C2_pause_crossfade_counterexample :
    (pausedPull 8 (List.replicate 8 1) 0 8).1 =
      [1, 3/4, 1/2, 1/4, 0, 0, 0, 0] ∧
    (3 : ℕ) < 8 ∧
    (pausedPull 8 (List.replicate 8 1) 0 8).1.get? 3 ≠
      some ((List.replicate 8 (1 : ℚ)).getD 3 0 * (1 - (3 : ℚ) / 8)) ∧
    (pausedPull 8 (List.replicate 8 1) 0 8).1.get? 3 ≠
      some ((List.replicate 8 (1 : ℚ)).getD 3 0 * (1 - (4 : ℚ) / 8)) := by
  refine ⟨?_, by decide, ?_, ?_⟩ <;>
    · simp [pausedPull, pausedSample, List.replicate]
      norm_num

/-- **C2 (amended).** Pause crossfade as the code implements it: the fade
counter advances by 2 per popped sample, so after pause is requested the Nth
popped sample (N counted from 0) is the buffered sample multiplied by
`1 - 2N/D` whenever `2N < D`; for every N with `2N ≥ D` (in particular every
`N ≥ D`) the output sample is exactly `0`; and `resume` resets the fade
counter to zero and clears the pause flag, so the next pull runs the playing
branch, which outputs the popped sample with multiplier 1. -/
theorem C2_pause_crossfade_amended (D n N : ℕ) (buf : List ℚ)
    (s : AudioState) (r : ℚ) (hN : N < n) :
    ((pausedPull D buf 0 n).1.get? N =
      some (if 2 * N < D then
        buf.getD N 0 * (1 - ((2 * N : ℕ) : ℚ) / (D : ℚ)) else 0)) ∧
    (D ≤ 2 * N → (pausedPull D buf 0 n).1.get? N = some 0) ∧
    (D ≤ N → (pausedPull D buf 0 n).1.get? N = some 0) ∧
    (resume s).fade_samples = 0 ∧
    (resume s).is_paused = false ∧
    (playingSample r (resume s).buffer (resume s).current_playback_time).1 =
      s.buffer.headD 0 := by
  have h0 := pausedPull_get D n buf 0 N hN
  rw [Nat.zero_add] at h0
  refine ⟨h0, ?_, ?_, rfl, rfl, rfl⟩
  · intro hD
    rw [h0, if_neg (by omega)]
  · intro hD
    rw [h0, if_neg (by omega)]

theorem C2_pause_crossfade_amended_witness :
    (3 : ℕ) < 8 ∧
    (pausedPull 8 (List.replicate 8 1) 0 8).1.get? 3 =
      some (if 2 * 3 < 8 then
        (List.replicate 8 (1 : ℚ)).getD 3 0 * (1 - ((2 * 3 : ℕ) : ℚ) / (8 : ℚ))
        else 0) :=
  ⟨by decide,
   (C2_pause_crossfade_amended 8 8 3 (List.replicate 8 1)
     ⟨[], 0, false, 0⟩ 44100 (by decide)).1⟩

/-- **C10.** `pause()` only sets the paused flag: it leaves the fade counter,
the ring buffer and the playback clock unchanged; `resume()` resets the fade
counter to zero; and `toggle()` resets the fade counter exactly when it
transitions to playing (i.e. when the state was paused). -/
theorem C10_pause_only_sets_flag (s : AudioState) :
    pause s = { s with is_paused := true } ∧
    (pause s).fade_samples = s.fade_samples ∧
    (pause s).buffer = s.buffer ∧
    (pause s).current_playback_time = s.current_playback_time ∧
    (pause s).is_paused = true ∧
    (resume s).fade_samples = 0 ∧
    (toggle s).fade_samples = (if s.is_paused then 0 else s.fade_samples) ∧
    (toggle s).is_paused = !s.is_paused ∧
    (toggle s).buffer = s.buffer := by
  cases hp : s.is_paused <;>
    simp [pause, resume, toggle, hp]

/-! ### Visualizer Feed (`src/visualizer.rs`, updated from `src/aux.rs`)

`VisualizerData` (visualizer.rs:10-16) and the two writes the output
callback performs on it: the amplitude-ring update (aux.rs:156-167) and the
note-history push done for each result released by the sequencer drain
(aux.rs:236-245). -/

structure VisualizerData where
  current_time : ℚ
  amplitude_samples : List ℚ
  note_history : List (ℚ × String)
  current_note : Option String
  total_duration : ℚ
deriving DecidableEq

/-- aux.rs:156-167: set the clock fields, append the frame samples to the
amplitude ring, and drain the front down to 2048 samples when it overflows. -/
def updateVisualizerAmplitudes (t total : ℚ) (frame : List ℚ)
    (v : VisualizerData) : VisualizerData :=
  let amp := v.amplitude_samples ++ frame
  { v with
    current_time := t
    total_duration := total
    amplitude_samples :=
      if 2048 < amp.length then amp.drop (amp.length - 2048) else amp }

/-- aux.rs:236-245: for one released result, set it as current note, push it
onto the note history, and pop the oldest entry when the history exceeds 20. -/
def pushNoteHistory (r : AnalysisResult) (v : VisualizerData) :
    VisualizerData :=
  let h := v.note_history ++ [(r.timestamp, r.note)]
  { v with
    current_note := some r.note
    note_history := if 20 < h.length then h.drop 1 else h }

/-- The visualizer effect of one hardware-pull callback: the amplitude-ring
update followed by one note-history push per released result. -/
def visualizerCallback (t total : ℚ) (frame : List ℚ)
    (released : List AnalysisResult) (v : VisualizerData) : VisualizerData :=
  released.foldl (fun v r => pushNoteHistory r v)
    (updateVisualizerAmplitudes t total frame v)

lemma pushNoteHistory_amp (r : AnalysisResult) (v : VisualizerData) :
    (pushNoteHistory r v).amplitude_samples = v.amplitude_samples := rfl

lemma foldl_pushNoteHistory_amp (rs : List AnalysisResult)
    (v : VisualizerData) :
    (rs.foldl (fun v r => pushNoteHistory r v) v).amplitude_samples =
      v.amplitude_samples := by
  induction rs generalizing v with
  | nil => rfl
  | cons r rs ih => rw [List.foldl_cons, ih, pushNoteHistory_amp]

lemma pushNoteHistory_len (r : AnalysisResult) (v : VisualizerData)
    (hv : v.note_history.length ≤ 20) :
    (pushNoteHistory r v).note_history.length ≤ 20 := by
  simp only [pushNoteHistory]
  split <;> simp_all

lemma foldl_pushNoteHistory_len (rs : List AnalysisResult)
    (v : VisualizerData) (hv : v.note_history.length ≤ 20) :
    (rs.foldl (fun v r => pushNoteHistory r v) v).note_history.length
      ≤ 20 := by
  induction rs generalizing v with
  | nil => exact hv
  | cons r rs ih => exact ih _ (pushNoteHistory_len r v hv)

/-- **C8.** Visualizer cap invariant: after every hardware-pull callback
(amplitude-ring update plus one history push per released result), the
amplitude ring holds at most 2048 samples, and — provided the note history
respected its cap before, as it does from its empty initial state — the
note-history deque holds at most 20 entries; each is trimmed by dropping its
oldest entries. -/
theorem C8_visualizer_caps (t total : ℚ) (frame : List ℚ)
    (released : List AnalysisResult) (v : VisualizerData)
    (hv : v.note_history.length ≤ 20) :
    (visualizerCallback t total frame released v).amplitude_samples.length
      ≤ 2048 ∧
    (visualizerCallback t total frame released v).note_history.length
      ≤ 20 := by
  constructor
  · unfold visualizerCallback
    rw [foldl_pushNoteHistory_amp]
    simp only [updateVisualizerAmplitudes]
    split
    · simp only [List.length_drop]
      omega
    · simp only [not_lt] at *
      assumption
  · unfold visualizerCallback
    apply foldl_pushNoteHistory_len
    exact hv

theorem C8_visualizer_caps_witness :
    (([] : List (ℚ × String)).length ≤ 20) ∧
    (visualizerCallback 0 0 [1, 2, 3] [⟨1, "A4"⟩]
      ⟨0, [], [], none, 0⟩).amplitude_samples.length ≤ 2048 ∧
    (visualizerCallback 0 0 [1, 2, 3] [⟨1, "A4"⟩]
      ⟨0, [], [], none, 0⟩).note_history.length ≤ 20 :=
  ⟨by decide,
   C8_visualizer_caps 0 0 [1, 2, 3] [⟨1, "A4"⟩] ⟨0, [], [], none, 0⟩
     (by decide)⟩

/-! ### Windower (`src/window.rs`)

`hann_window` (window.rs:3-12) and `window_audio_samples` (window.rs:14-35).
`cosOr x` is the oracle for `f32::cos(2π · x)`.  The source loops
`for pos in (0..window_size).step_by(hop_size)` and takes the slice
`samples[pos..pos + window_size]`; `step_by(0)` and an out-of-range slice
both panic, modelled by `none`.  Each frame is a zero-initialised vector of
length `window_size` whose entries `0 .. window_size - 2` are set to
`chunk[i] * coeff[i]`; the entry at `window_size - 1` is never written and
stays `0`. -/

def hann_window (cosOr : ℚ → ℚ) (W : ℕ) : List ℚ :=
  (List.range W).map
    (fun (i : ℕ) => 1 / 2 * (1 - cosOr ((i : ℚ) / ((W : ℚ) - 1))))

def windowFrame (coeffs chunk : List ℚ) (W : ℕ) : List ℚ :=
  (List.range W).map
    (fun i => if i < W - 1 then chunk.getD i 0 * coeffs.getD i 0 else 0)

/-- The positions visited by `(0..W).step_by(hop)` for `hop > 0`:
`0, hop, 2·hop, …`, in total `⌈W / hop⌉` of them. -/
def windowPositions (W hop : ℕ) : List ℕ :=
  (List.range ((W + hop - 1) / hop)).map (fun j => j * hop)

def window_audio_samples (cosOr : ℚ → ℚ) (samples : List ℚ) (W : ℕ) :
    Option (List (List ℚ)) :=
  let hop := W / 4
  if hop = 0 then none
  else
    let coeffs := hann_window cosOr W
    (windowPositions W hop).foldl
      (fun acc pos =>
        acc.bind (fun frames =>
          if pos + W ≤ samples.length then
            some (frames ++ [windowFrame coeffs ((samples.drop pos).take W) W])
          else none))
      (some [])

lemma windowFold_eq (samples : List ℚ) (W : ℕ) (coeffs : List ℚ) :
    ∀ (ps : List ℕ) (acc : List (List ℚ)),
      (∀ pos ∈ ps, pos + W ≤ samples.length) →
      ps.foldl
        (fun acc pos =>
          acc.bind (fun frames =>
            if pos + W ≤ samples.length then
              some (frames ++
                [windowFrame coeffs ((samples.drop pos).take W) W])
            else none))
        (some acc) =
      some (acc ++
        ps.map (fun pos => windowFrame coeffs ((samples.drop pos).take W) W)) := by
  intro ps
  induction ps with
  | nil => intro acc h; simp
  | cons p ps ih =>
    intro acc h
    have hp : p + W ≤ samples.length := h p (List.mem_cons_self p ps)
    rw [List.foldl_cons, Option.some_bind, if_pos hp,
      ih _ (fun q hq => h q (List.mem_cons_of_mem p hq))]
    simp

lemma window_audio_samples_eq (cosOr : ℚ → ℚ) (samples : List ℚ) (W : ℕ)
    (hhop : W / 4 ≠ 0)
    (hlen : ∀ pos ∈ windowPositions W (W / 4), pos + W ≤ samples.length) :
    window_audio_samples cosOr samples W =
      some ((windowPositions W (W / 4)).map
        (fun pos =>
          windowFrame (hann_window cosOr W) ((samples.drop pos).take W) W)) := by
  unfold window_audio_samples
  rw [if_neg hhop, windowFold_eq samples W _ _ [] hlen]
  simp

lemma windowFrame_length (coeffs chunk : List ℚ) (W : ℕ) :
    (windowFrame coeffs chunk W).length = W := by
  simp [windowFrame]

lemma getD_map_range (f : ℕ → ℚ) (W i : ℕ) (hi : i < W) :
    ((List.range W).map f).getD i 0 = f i := by
  rw [List.getD_eq_getElem?_getD, List.getElem?_map, List.getElem?_range hi]
  rfl

lemma windowFrame_getD (coeffs chunk : List ℚ) (W i : ℕ) (hi : i < W) :
    (windowFrame coeffs chunk W).getD i 0 =
      if i < W - 1 then chunk.getD i 0 * coeffs.getD i 0 else 0 := by
  unfold windowFrame
  exact getD_map_range _ W i hi

lemma hann_window_getD (cosOr : ℚ → ℚ) (W i : ℕ) (hi : i < W) :
    (hann_window cosOr W).getD i 0 =
      1 / 2 * (1 - cosOr ((i : ℚ) / ((W : ℚ) - 1))) := by
  unfold hann_window
  exact getD_map_range _ W i hi

lemma chunk_getD (samples : List ℚ) (pos W i : ℕ) (hi : i < W) :
    ((samples.drop pos).take W).getD i 0 = samples.getD (pos + i) 0 := by
  rw [List.getD_eq_getElem?_getD, List.getD_eq_getElem?_getD,
    List.getElem?_take_of_lt hi, List.getElem?_drop]

/-- **C4.** Windower totality is violated: the claim says windowing has no
failure mode and returns an empty frame list on a chunk shorter than one
window, but `window_audio_samples` slices `samples[pos..pos + window_size]`
for `pos` ranging over `0..window_size` regardless of the input length, so on
the 3-sample chunk `[1, 2, 3]` with window size 4 the very first slice is out
of range and the function panics (modelled by `none`), for every `cos`
oracle. -/
theorem C4_windower_panics_on_short_input (cosOr : ℚ → ℚ) :
    window_audio_samples cosOr [1, 2, 3] 4 = none ∧
    ([1, 2, 3] : List ℚ).length < 4 :=
  ⟨rfl, by decide⟩

/-- **C3 (counterexample).** The claim fails twice on the code: (a) a buffer
of length exactly `W = 4` (which is `≥ W`) makes `window_audio_samples`
panic (`none`) because the stride loop runs `pos` up to `W - 1` and slices
past the end; (b) on a buffer of 8 ones the call succeeds, but the last
sample (index 3) of the first frame is `0`, not the unmodified input sample
`1`: the frame is zero-initialised and index `W - 1` is never written. -/
theorem C3_windower_frame_shape_counterexample :
    window_audio_samples (fun _ => 0) (List.replicate 4 1) 4 = none ∧
    (List.replicate 4 (1 : ℚ)).length = 4 ∧
    (window_audio_samples (fun _ => 0) (List.replicate 8 1) 4).map
        (fun frames => (frames.getD 0 []).getD 3 0) = some 0 ∧
    (List.replicate 8 (1 : ℚ)).getD 3 0 = 1 ∧
    (0 : ℚ) ≠ 1 := by
  refine ⟨rfl, by decide, ?_, by decide, by norm_num⟩
  rw [window_audio_samples_eq (fun _ => (0 : ℚ)) (List.replicate 8 1) 4
    (by decide) (by decide)]
  have h0 : (windowPositions 4 (4 / 4))[0]? =
      some 0 := by decide
  have hval :
      (((windowPositions 4 (4 / 4)).map
        (fun pos =>
          windowFrame (hann_window (fun _ => (0 : ℚ)) 4)
            (((List.replicate 8 1).drop pos).take 4) 4)).getD 0 []).getD 3 0
        = 0 := by
    rw [List.getD_eq_getElem?_getD, List.getD_eq_getElem?_getD,
      List.getElem?_map, h0]
    simp only [Option.map_some', Option.getD_some]
    rw [← List.getD_eq_getElem?_getD, windowFrame_getD _ _ _ _ (by decide)]
    norm_num
  rw [Option.map_some', hval]

/-- **C3 (amended).** Windower frame shape as the code implements it: for
every window size `W` with `W / 4 ≥ 1` and every input buffer long enough
that each stride position `pos ∈ {0, hop, …} ∩ [0, W)` satisfies
`pos + W ≤ length` (mere `length ≥ W` is *not* enough), windowing succeeds
and returns `⌈W / hop⌉` frames each of length exactly `W`; for every index
`i ∈ [0, W - 2]` the frame's `i`-th sample equals the input sample at
`pos + i` multiplied by the Hann coefficient `0.5 · (1 - cos(2π·i/(W-1)))`,
and the last sample (index `W - 1`) of each frame is always `0` (the input's
last window sample is dropped, not passed through unmodified). -/
theorem C3_windower_frame_shape_amended (cosOr : ℚ → ℚ) (samples : List ℚ)
    (W : ℕ) (hW : W / 4 ≠ 0)
    (hlen : ∀ pos ∈ windowPositions W (W / 4), pos + W ≤ samples.length) :
    ∃ frames, window_audio_samples cosOr samples W = some frames ∧
      frames.length = (W + W / 4 - 1) / (W / 4) ∧
      (∀ fr ∈ frames, fr.length = W) ∧
      (∀ j pos, (windowPositions W (W / 4))[j]? = some pos →
        ∀ i : ℕ, i < W - 1 →
          (frames.getD j []).getD i 0 =
            samples.getD (pos + i) 0 *
              (1 / 2 * (1 - cosOr ((i : ℚ) / ((W : ℚ) - 1))))) ∧
      (∀ fr ∈ frames, fr.getD (W - 1) 0 = 0) := by
  have hW4 : 4 ≤ W := by
    rcases Nat.lt_or_ge W 4 with h | h
    · exact absurd (Nat.div_eq_of_lt h) hW
    · exact h
  refine ⟨_, window_audio_samples_eq cosOr samples W hW hlen, ?_, ?_, ?_, ?_⟩
  · rw [List.length_map]
    unfold windowPositions
    rw [List.length_map, List.length_range]
  · intro fr hfr
    obtain ⟨pos, _, rfl⟩ := List.mem_map.mp hfr
    exact windowFrame_length _ _ _
  · intro j pos hj i hi
    have hiW : i < W := by omega
    have hget :
        ((windowPositions W (W / 4)).map
          (fun pos =>
            windowFrame (hann_window cosOr W)
              ((samples.drop pos).take W) W)).getD j [] =
          windowFrame (hann_window cosOr W) ((samples.drop pos).take W) W := by
      rw [List.getD_eq_getElem?_getD, List.getElem?_map, hj]
      rfl
    rw [hget, windowFrame_getD _ _ _ _ hiW, if_pos hi,
      chunk_getD samples pos W i hiW, hann_window_getD cosOr W i hiW]
  · intro fr hfr
    obtain ⟨pos, _, rfl⟩ := List.mem_map.mp hfr
    rw [windowFrame_getD _ _ _ _ (by omega)]
    simp

theorem C3_windower_frame_shape_amended_witness :
    ((4 : ℕ) / 4 ≠ 0) ∧
    (∀ pos ∈ windowPositions 4 (4 / 4),
      pos + 4 ≤ (List.replicate 8 (1 : ℚ)).length) ∧
    (∃ frames,
      window_audio_samples (fun _ => 1) (List.replicate 8 1) 4 = some frames ∧
      frames.length = (4 + 4 / 4 - 1) / (4 / 4) ∧
      (∀ fr ∈ frames, fr.length = 4) ∧
      (∀ j pos, (windowPositions 4 (4 / 4))[j]? = some pos →
        ∀ i : ℕ, i < 4 - 1 →
          (frames.getD j []).getD i 0 =
            (List.replicate 8 (1 : ℚ)).getD (pos + i) 0 *
              (1 / 2 * (1 - (fun (_ : ℚ) => (1 : ℚ))
                ((i : ℚ) / ((4 : ℚ) - 1))))) ∧
      (∀ fr ∈ frames, fr.getD (4 - 1) 0 = 0)) :=
  ⟨by decide, by decide,
   C3_windower_frame_shape_amended (fun _ => 1) (List.replicate 8 1) 4
     (by decide) (by decide)⟩

/-! ### Streaming stage (`src/stream.rs`)

The decode loop of `decode_audio_stream` (stream.rs:100-164): every decoded
packet's samples are appended to the playback buffer and accumulated into
`analysis_chunk`; once the accumulator holds at least
`ANALYSIS_CHUNK_SIZE = 8192` samples it is sent to the analysis queue and
cleared.  When the input is exhausted the loop just breaks: the leftover
accumulator is dropped and no end-of-stream marker of any kind exists. -/

structure DecodeState where
  playback : List ℚ
  pending : List ℚ
  sent : List (List ℚ)
deriving DecidableEq

/-- Effect of one decoded packet (stream.rs:130-156). -/
def decodePacket (C : ℕ) (st : DecodeState) (pkt : List ℚ) : DecodeState :=
  let playback := st.playback ++ pkt
  let pending := st.pending ++ pkt
  if C ≤ pending.length then
    { playback := playback, pending := [], sent := st.sent ++ [pending] }
  else
    { playback := playback, pending := pending, sent := st.sent }

/-- The whole decode loop over the packet sequence, from the empty state. -/
def decode_audio_stream (C : ℕ) (packets : List (List ℚ)) : DecodeState :=
  packets.foldl (decodePacket C) ⟨[], [], []⟩

lemma decode_foldl_invariant (C : ℕ) (hC : 0 < C) :
    ∀ (packets : List (List ℚ)) (st : DecodeState),
      st.sent.flatten ++ st.pending = st.playback →
      st.pending.length < C →
      (∀ c ∈ st.sent, C ≤ c.length) →
      (packets.foldl (decodePacket C) st).playback =
          st.playback ++ packets.flatten ∧
      (packets.foldl (decodePacket C) st).sent.flatten ++
          (packets.foldl (decodePacket C) st).pending =
          (packets.foldl (decodePacket C) st).playback ∧
      (packets.foldl (decodePacket C) st).pending.length < C ∧
      (∀ c ∈ (packets.foldl (decodePacket C) st).sent, C ≤ c.length) := by
  intro packets
  induction packets with
  | nil =>
    intro st h1 h2 h3
    simpa using ⟨h1, h2, h3⟩
  | cons pkt packets ih =>
    intro st h1 h2 h3
    rw [List.foldl_cons]
    by_cases hfull : C ≤ (st.pending ++ pkt).length
    · have hstep : decodePacket C st pkt =
          ⟨st.playback ++ pkt, [], st.sent ++ [st.pending ++ pkt]⟩ := by
        unfold decodePacket
        rw [if_pos hfull]
      rw [hstep]
      have h1a : (st.sent ++ [st.pending ++ pkt]).flatten ++ ([] : List ℚ) =
          st.playback ++ pkt := by
        simp only [List.append_nil, List.flatten_append, List.flatten_cons,
          List.flatten_nil]
        rw [← List.append_assoc, h1]
      have h3a : ∀ c ∈ st.sent ++ [st.pending ++ pkt], C ≤ c.length := by
        intro c hc
        rcases List.mem_append.mp hc with hc | hc
        · exact h3 c hc
        · rcases List.mem_singleton.mp hc with rfl
          simpa using hfull
      obtain ⟨g1, g2, g3, g4⟩ :=
        ih ⟨st.playback ++ pkt, [], st.sent ++ [st.pending ++ pkt]⟩ h1a
          (by simpa using hC) h3a
      refine ⟨?_, g2, g3, g4⟩
      rw [g1]
      simp
    · have hstep : decodePacket C st pkt =
          ⟨st.playback ++ pkt, st.pending ++ pkt, st.sent⟩ := by
        unfold decodePacket
        rw [if_neg hfull]
      rw [hstep]
      have h1a : st.sent.flatten ++ (st.pending ++ pkt) =
          st.playback ++ pkt := by
        rw [← List.append_assoc, h1]
      obtain ⟨g1, g2, g3, g4⟩ :=
        ih ⟨st.playback ++ pkt, st.pending ++ pkt, st.sent⟩ h1a
          (not_le.mp hfull) h3
      refine ⟨?_, g2, g3, g4⟩
      rw [g1]
      simp

/-- **C5 (counterexample).** The claim says streaming emits `⌈L/C⌉` chunks
reconstructing the buffer, the last flagged end-of-stream.  With one decoded
packet of a single sample and `C = 8192` (the source's
`ANALYSIS_CHUNK_SIZE`), `⌈1/8192⌉ = 1` chunk should be emitted, but the code
emits none: the final partial accumulator is dropped when the stream ends. -/
theorem C5_stream_chunking_counterexample :
    (decode_audio_stream 8192 [[1]]).sent.length = 0 ∧
    (1 + 8192 - 1) / 8192 = 1 ∧
    (decode_audio_stream 8192 [[1]]).pending = [1] ∧
    (0 : ℕ) ≠ 1 := by
  refine ⟨rfl, by norm_num, rfl, by norm_num⟩

/-- **C5 (amended).** What the decode loop actually guarantees, for any
positive accumulator threshold `C`: the playback buffer receives exactly the
concatenation of all decoded packets; the emitted analysis chunks, in order,
followed by the final un-emitted remainder, reconstruct that same sequence;
every emitted chunk holds at least `C` samples (chunks are cut at packet
granularity, not at exactly `C`); and the dropped remainder holds fewer than
`C` samples.  No chunk carries an end-of-stream flag, and the final partial
chunk is never emitted. -/
theorem C5_stream_chunking_amended (C : ℕ) (packets : List (List ℚ))
    (hC : 0 < C) :
    (decode_audio_stream C packets).playback = packets.flatten ∧
    (decode_audio_stream C packets).sent.flatten ++
        (decode_audio_stream C packets).pending = packets.flatten ∧
    (decode_audio_stream C packets).pending.length < C ∧
    (∀ c ∈ (decode_audio_stream C packets).sent, C ≤ c.length) := by
  obtain ⟨g1, g2, g3, g4⟩ := decode_foldl_invariant C hC packets ⟨[], [], []⟩
    (by simp) (by simpa using hC) (by simp)
  rw [decode_audio_stream]
  refine ⟨by simpa using g1, ?_, g3, g4⟩
  rw [g2]
  simpa using g1

theorem C5_stream_chunking_amended_witness :
    (0 : ℕ) < 2 ∧
    ((decode_audio_stream 2 [[1], [2, 3], [4]]).playback =
        ([[1], [2, 3], [4]] : List (List ℚ)).flatten ∧
     (decode_audio_stream 2 [[1], [2, 3], [4]]).sent.flatten ++
        (decode_audio_stream 2 [[1], [2, 3], [4]]).pending =
        ([[1], [2, 3], [4]] : List (List ℚ)).flatten ∧
     (decode_audio_stream 2 [[1], [2, 3], [4]]).pending.length < 2 ∧
     (∀ c ∈ (decode_audio_stream 2 [[1], [2, 3], [4]]).sent,
        2 ≤ c.length)) :=
  ⟨by decide, C5_stream_chunking_amended 2 [[1], [2, 3], [4]] (by decide)⟩

/-! ### Spectral band peak extraction (`src/fft.rs`)

`analyze_frequency_bands` (fft.rs:27-79).  The spectrum is the list of
complex FFT bins, modelled as (re, im) pairs of rationals; `normOr` is the
oracle for `Complex::norm` and `sqrtOr` for `f32::sqrt`.  The band edges are
converted to bin indices with `as usize` (truncation, saturating at 0 —
`natFloor`), and the bins visited are `enumerate().take(min(high_bin,
len)).skip(low_bin)`.  Candidates are sorted descending by weighted
magnitude (`sort_by(|a, b| b.0.partial_cmp(&a.0))`) and the first
`k_per_band` frequencies are kept. -/

def bandsList : List (ℚ × ℚ) := [(50, 250), (250, 800), (800, 2000), (2000, 6000)]

/-- `as usize` on a nonnegative float: truncation toward zero (= floor),
saturating at 0 for negative values. -/
def natFloor (q : ℚ) : ℕ := ⌊q⌋.toNat

/-- fft.rs:57-61: weight 1 for frequencies ≤ 400 Hz, else
`min(sqrt(f/400), 2)`. -/
def freqWeight (sqrtOr : ℚ → ℚ) (f : ℚ) : ℚ :=
  if 400 < f then min (sqrtOr (f / 400)) 2 else 1

/-- The descending-by-weighted-magnitude comparison used by the sort. -/
def weightGE (a b : ℚ × ℚ) : Prop := b.1 ≤ a.1

instance : DecidableRel weightGE := fun a b =>
  inferInstanceAs (Decidable (b.1 ≤ a.1))

instance : IsTotal (ℚ × ℚ) weightGE := ⟨fun a b => le_total b.1 a.1⟩

instance : IsTrans (ℚ × ℚ) weightGE :=
  ⟨fun _ _ _ h1 h2 => le_trans h2 h1⟩

/-- fft.rs:41-66: the (weighted magnitude, frequency) candidates of one
band: bins `low_bin ≤ bin < min(high_bin, spectrum.len())`. -/
def bandCandidates (sqrtOr : ℚ → ℚ) (normOr : ℚ × ℚ → ℚ)
    (spectrum : List (ℚ × ℚ)) (sr : ℚ) (W : ℕ) (band : ℚ × ℚ) :
    List (ℚ × ℚ) :=
  let lowBin := natFloor (band.1 * (W : ℚ) / sr)
  let highBin := natFloor (band.2 * (W : ℚ) / sr)
  ((spectrum.enum.take (min highBin spectrum.length)).drop lowBin).map
    (fun bc =>
      let frequency := (bc.1 : ℚ) * sr / (W : ℚ)
      (normOr bc.2 * freqWeight sqrtOr frequency, frequency))

/-- fft.rs:27-79: per band, sort the candidates descending by weighted
magnitude and keep the first `k` frequencies. -/
def analyze_frequency_bands (sqrtOr : ℚ → ℚ) (normOr : ℚ × ℚ → ℚ)
    (spectrum : List (ℚ × ℚ)) (sr : ℚ) (W k : ℕ) : List (List ℚ) :=
  bandsList.map (fun band =>
    (((bandCandidates sqrtOr normOr spectrum sr W band).insertionSort
        weightGE).take k).map (fun c => c.2))

lemma bandCandidates_length (sqrtOr : ℚ → ℚ) (normOr : ℚ × ℚ → ℚ)
    (spectrum : List (ℚ × ℚ)) (sr : ℚ) (W : ℕ) (band : ℚ × ℚ) :
    (bandCandidates sqrtOr normOr spectrum sr W band).length =
      min (natFloor (band.2 * (W : ℚ) / sr)) spectrum.length -
        natFloor (band.1 * (W : ℚ) / sr) := by
  simp only [bandCandidates, List.length_map, List.length_drop,
    List.length_take, List.enum_length]
  omega

lemma bandCandidates_getElem? (sqrtOr : ℚ → ℚ) (normOr : ℚ × ℚ → ℚ)
    (spectrum : List (ℚ × ℚ)) (sr : ℚ) (W : ℕ) (band : ℚ × ℚ) (j : ℕ)
    (hj : natFloor (band.1 * (W : ℚ) / sr) + j <
      min (natFloor (band.2 * (W : ℚ) / sr)) spectrum.length) :
    (bandCandidates sqrtOr normOr spectrum sr W band)[j]? =
      spectrum[natFloor (band.1 * (W : ℚ) / sr) + j]?.map
        (fun c =>
          (normOr c *
            freqWeight sqrtOr
              (((natFloor (band.1 * (W : ℚ) / sr) + j : ℕ) : ℚ) * sr / (W : ℚ)),
           ((natFloor (band.1 * (W : ℚ) / sr) + j : ℕ) : ℚ) * sr / (W : ℚ))) := by
  unfold bandCandidates
  rw [List.getElem?_map, List.getElem?_drop, List.getElem?_take_of_lt hj,
    List.getElem?_enum, Option.map_map]
  rfl

lemma mem_bandCandidates (sqrtOr : ℚ → ℚ) (normOr : ℚ × ℚ → ℚ)
    (spectrum : List (ℚ × ℚ)) (sr : ℚ) (W : ℕ) (band : ℚ × ℚ)
    (x : ℚ × ℚ) (hx : x ∈ bandCandidates sqrtOr normOr spectrum sr W band) :
    ∃ bin : ℕ, natFloor (band.1 * (W : ℚ) / sr) ≤ bin ∧
      bin < min (natFloor (band.2 * (W : ℚ) / sr)) spectrum.length ∧
      x.2 = (bin : ℚ) * sr / (W : ℚ) := by
  unfold bandCandidates at hx
  obtain ⟨bc, hbc, rfl⟩ := List.mem_map.mp hx
  obtain ⟨j, hjlen, hjget⟩ := List.getElem_of_mem hbc
  have hjlen' := hjlen
  simp only [List.length_drop, List.length_take, List.enum_length] at hjlen'
  have hq : ((spectrum.enum.take
      (min (natFloor (band.2 * (W : ℚ) / sr)) spectrum.length)).drop
        (natFloor (band.1 * (W : ℚ) / sr)))[j]? = some bc := by
    rw [List.getElem?_eq_getElem hjlen, hjget]
  rw [List.getElem?_drop, List.getElem?_take_of_lt (by omega),
    List.getElem?_enum] at hq
  obtain ⟨c, _, hc2⟩ := Option.map_eq_some'.mp hq
  refine ⟨natFloor (band.1 * (W : ℚ) / sr) + j, by omega, by omega, ?_⟩
  rw [← hc2]

/-- **C6 (amended).** Band peak selection as the code implements it: for each
of the 4 fixed bands `(lo, hi)`, the candidate bins are exactly those `b`
with `⌊lo·W/sr⌋ ≤ b < min(⌊hi·W/sr⌋, #bins)` — a floor-truncated *bin* range,
not the set of bins whose frequency `b·sr/W` lies in `[lo, hi]` (the range
can admit frequencies below `lo` and omit in-range frequencies just under
`hi`); each candidate is weighted by magnitude × frequency weight (1 for
`f ≤ 400`, else `min(2, sqrt(f/400))`); the candidates are sorted descending
by weighted magnitude and the first `k_per_band` frequencies are kept. -/
theorem C6_band_peak_selection_amended (sqrtOr : ℚ → ℚ)
    (normOr : ℚ × ℚ → ℚ) (spectrum : List (ℚ × ℚ)) (sr : ℚ) (W k i : ℕ)
    (band : ℚ × ℚ) (hb : bandsList[i]? = some band) :
    ∃ sorted : List (ℚ × ℚ),
      (bandCandidates sqrtOr normOr spectrum sr W band).Perm sorted ∧
      sorted.Pairwise weightGE ∧
      (analyze_frequency_bands sqrtOr normOr spectrum sr W k).getD i [] =
        (sorted.take k).map (fun c => c.2) ∧
      (analyze_frequency_bands sqrtOr normOr spectrum sr W k).length = 4 ∧
      ((analyze_frequency_bands sqrtOr normOr spectrum sr W k).getD i
        []).length ≤ k ∧
      (bandCandidates sqrtOr normOr spectrum sr W band).length =
        min (natFloor (band.2 * (W : ℚ) / sr)) spectrum.length -
          natFloor (band.1 * (W : ℚ) / sr) ∧
      (∀ j : ℕ,
        natFloor (band.1 * (W : ℚ) / sr) + j <
          min (natFloor (band.2 * (W : ℚ) / sr)) spectrum.length →
        (bandCandidates sqrtOr normOr spectrum sr W band)[j]? =
          spectrum[natFloor (band.1 * (W : ℚ) / sr) + j]?.map
            (fun c =>
              (normOr c *
                freqWeight sqrtOr
                  (((natFloor (band.1 * (W : ℚ) / sr) + j : ℕ) : ℚ) * sr /
                    (W : ℚ)),
               ((natFloor (band.1 * (W : ℚ) / sr) + j : ℕ) : ℚ) * sr /
                 (W : ℚ)))) ∧
      (∀ f ∈ (analyze_frequency_bands sqrtOr normOr spectrum sr W k).getD i
          [],
        ∃ bin : ℕ, natFloor (band.1 * (W : ℚ) / sr) ≤ bin ∧
          bin < min (natFloor (band.2 * (W : ℚ) / sr)) spectrum.length ∧
          f = (bin : ℚ) * sr / (W : ℚ)) := by
  have hgetD :
      (analyze_frequency_bands sqrtOr normOr spectrum sr W k).getD i [] =
        (((bandCandidates sqrtOr normOr spectrum sr W band).insertionSort
          weightGE).take k).map (fun c => c.2) := by
    unfold analyze_frequency_bands
    rw [List.getD_eq_getElem?_getD, List.getElem?_map, hb]
    rfl
  refine ⟨(bandCandidates sqrtOr normOr spectrum sr W band).insertionSort
      weightGE,
    (List.perm_insertionSort weightGE _).symm,
    List.sorted_insertionSort weightGE _,
    hgetD, by simp [analyze_frequency_bands, bandsList], ?_, ?_, ?_, ?_⟩
  · rw [hgetD]
    simp only [List.length_map, List.length_take]
    omega
  · exact bandCandidates_length sqrtOr normOr spectrum sr W band
  · intro j hj
    exact bandCandidates_getElem? sqrtOr normOr spectrum sr W band j hj
  · intro f hf
    rw [hgetD] at hf
    obtain ⟨c, hc, rfl⟩ := List.mem_map.mp hf
    have hc2 : c ∈ (bandCandidates sqrtOr normOr spectrum sr W
        band).insertionSort weightGE := List.mem_of_mem_take hc
    rw [List.mem_insertionSort] at hc2
    exact mem_bandCandidates sqrtOr normOr spectrum sr W band c hc2

/-- Oracle for `f32::sqrt`, only ever consulted at weights for frequencies
above 400 Hz, which do not occur in the counterexample spectrum below. -/
def sqrtOracle1 : ℚ → ℚ := fun _ => 1

/-- Oracle for `Complex::norm` on the counterexample spectrum: the bins are
`(0, 0)` (norm exactly 0) and `(1, 0)` (norm exactly 1), so the oracle is
exact at every input used. -/
def normOracle1 : ℚ × ℚ → ℚ := fun c => if c = (1, 0) then 1 else 0

/-- A 12-bin spectrum whose only nonzero bin is bin 2; at
`sample_rate = 44100` and `window_size = 2048` bin 2 has frequency
`2 · 44100 / 2048 = 11025/256 ≈ 43.07 Hz`. -/
def spectrum12 : List (ℚ × ℚ) :=
  [(0, 0), (0, 0), (1, 0), (0, 0), (0, 0), (0, 0),
   (0, 0), (0, 0), (0, 0), (0, 0), (0, 0), (0, 0)]

/-- **C6 (counterexample).** The claim says exactly the bins whose frequency
`bin · sample_rate / window_size` falls in the band's range are considered.
At `sample_rate = 44100`, `window_size = 2048`, the 50–250 Hz band's bin
range is computed as `⌊50·2048/44100⌋ = 2` to `⌊250·2048/44100⌋ = 11`, so
bin 2 — whose frequency `11025/256 ≈ 43.07 Hz` is *below* 50 Hz — is
considered, and with the only nonzero magnitude it is returned among the
band's peaks. -/
theorem C6_band_peak_selection_counterexample :
    bandsList[0]? = some (50, 250) ∧
    (11025 / 256 : ℚ) ∈
      (analyze_frequency_bands sqrtOracle1 normOracle1 spectrum12
        44100 2048 12).getD 0 [] ∧
    (11025 / 256 : ℚ) < 50 := by
  have hlow : natFloor ((50 : ℚ) * ((2048 : ℕ) : ℚ) / 44100) = 2 := by
    unfold natFloor
    have h2 : (⌊(50 : ℚ) * ((2048 : ℕ) : ℚ) / 44100⌋ : ℤ) = 2 := by
      norm_num [Int.floor_eq_iff]
    rw [h2]
    rfl
  have hhigh : natFloor ((250 : ℚ) * ((2048 : ℕ) : ℚ) / 44100) = 11 := by
    unfold natFloor
    have h11 : (⌊(250 : ℚ) * ((2048 : ℕ) : ℚ) / 44100⌋ : ℤ) = 11 := by
      norm_num [Int.floor_eq_iff]
    rw [h11]
    rfl
  have hlen : spectrum12.length = 12 := by decide
  refine ⟨rfl, ?_, by norm_num⟩
  -- the candidate produced by bin 2
  have hget := bandCandidates_getElem? sqrtOracle1 normOracle1 spectrum12
    44100 2048 (50, 250) 0 (by rw [hlow, hhigh, hlen]; norm_num)
  rw [hlow] at hget
  have hspec2 : spectrum12[(2 : ℕ) + 0]? = some (1, 0) := by decide
  rw [hspec2] at hget
  set x : ℚ × ℚ :=
    (normOracle1 (1, 0) *
      freqWeight sqrtOracle1 (((2 + 0 : ℕ) : ℚ) * 44100 / ((2048 : ℕ) : ℚ)),
     ((2 + 0 : ℕ) : ℚ) * 44100 / ((2048 : ℕ) : ℚ)) with hxdef
  have hxmem : x ∈ bandCandidates sqrtOracle1 normOracle1 spectrum12
      44100 2048 (50, 250) := by
    apply List.getElem?_mem
    rw [hget]
    rfl
  have hx2 : x.2 = 11025 / 256 := by
    rw [hxdef]
    norm_num
  -- the band output is the sorted candidate list in full (9 ≤ 12)
  have hcandlen : (bandCandidates sqrtOracle1 normOracle1 spectrum12
      44100 2048 (50, 250)).length = 9 := by
    rw [bandCandidates_length, hlow, hhigh, hlen]
    decide
  have hgetD :
      (analyze_frequency_bands sqrtOracle1 normOracle1 spectrum12
        44100 2048 12).getD 0 [] =
        (((bandCandidates sqrtOracle1 normOracle1 spectrum12 44100 2048
          (50, 250)).insertionSort weightGE).take 12).map (fun c => c.2) := by
    unfold analyze_frequency_bands
    rfl
  rw [hgetD, List.take_of_length_le
    (by rw [(List.perm_insertionSort weightGE _).length_eq, hcandlen]; omega)]
  exact List.mem_map.mpr ⟨x, (List.mem_insertionSort weightGE).mpr hxmem, hx2⟩

theorem C6_band_peak_selection_amended_witness :
    bandsList[0]? = some (50, 250) ∧
    (∃ sorted : List (ℚ × ℚ),
      (bandCandidates sqrtOracle1 normOracle1 spectrum12 44100 2048
        (50, 250)).Perm sorted ∧
      sorted.Pairwise weightGE ∧
      (analyze_frequency_bands sqrtOracle1 normOracle1 spectrum12 44100 2048
        3).getD 0 [] = (sorted.take 3).map (fun c => c.2) ∧
      (analyze_frequency_bands sqrtOracle1 normOracle1 spectrum12 44100 2048
        3).length = 4 ∧
      ((analyze_frequency_bands sqrtOracle1 normOracle1 spectrum12 44100 2048
        3).getD 0 []).length ≤ 3 ∧
      (bandCandidates sqrtOracle1 normOracle1 spectrum12 44100 2048
        (50, 250)).length =
        min (natFloor ((250 : ℚ) * ((2048 : ℕ) : ℚ) / 44100))
          spectrum12.length - natFloor ((50 : ℚ) * ((2048 : ℕ) : ℚ) / 44100) ∧
      (∀ j : ℕ,
        natFloor ((50 : ℚ) * ((2048 : ℕ) : ℚ) / 44100) + j <
          min (natFloor ((250 : ℚ) * ((2048 : ℕ) : ℚ) / 44100))
            spectrum12.length →
        (bandCandidates sqrtOracle1 normOracle1 spectrum12 44100 2048
          (50, 250))[j]? =
          spectrum12[natFloor ((50 : ℚ) * ((2048 : ℕ) : ℚ) / 44100) + j]?.map
            (fun c =>
              (normOracle1 c *
                freqWeight sqrtOracle1
                  (((natFloor ((50 : ℚ) * ((2048 : ℕ) : ℚ) / 44100) + j :
                    ℕ) : ℚ) * 44100 / ((2048 : ℕ) : ℚ)),
               ((natFloor ((50 : ℚ) * ((2048 : ℕ) : ℚ) / 44100) + j :
                 ℕ) : ℚ) * 44100 / ((2048 : ℕ) : ℚ)))) ∧
      (∀ f ∈ (analyze_frequency_bands sqrtOracle1 normOracle1 spectrum12
          44100 2048 3).getD 0 [],
        ∃ bin : ℕ, natFloor ((50 : ℚ) * ((2048 : ℕ) : ℚ) / 44100) ≤ bin ∧
          bin < min (natFloor ((250 : ℚ) * ((2048 : ℕ) : ℚ) / 44100))
            spectrum12.length ∧
          f = (bin : ℚ) * 44100 / ((2048 : ℕ) : ℚ))) :=
  ⟨rfl, C6_band_peak_selection_amended sqrtOracle1 normOracle1 spectrum12
    44100 2048 3 0 (50, 250) rfl⟩

/-! ### Note / chord mapping (`src/notes.rs`)

`frequency_to_note` (notes.rs:42-92) over the `CHORD_DATABASE`
(notes.rs:4-38).  `lg x` is the oracle for `f32::log2(x)`.  The source
iterates a `HashMap`, whose iteration order is arbitrary; the database is
modelled as a list in the source's insertion order, and every
order-sensitive theorem only asserts order-independent facts (existence of a
matching entry, or a situation with a unique match).  `Vec::dedup` removes
*consecutive* duplicates only, `f32::round` rounds half away from zero, and
Rust `%`/`/` on `i32` are `Int.tmod`/`Int.tdiv`; a negative remainder cast
`as usize` indexes out of bounds (panic, modelled `none`). -/

def noteNames : List String :=
  ["C", "C#", "D", "D#", "E", "F"] ++ ["F#", "G", "G#", "A", "A#", "B"]

def chordDatabase : List (String × List String) :=
  [("C", ["C", "E", "G"]), ("C#", ["C#", "F", "G#"]),
   ("D", ["D", "F#", "A"]), ("D#", ["D#", "G", "A#"]),
   ("E", ["E", "G#", "B"]), ("F", ["F", "A", "C"]),
   ("F#", ["F#", "A#", "C#"]), ("G", ["G", "B", "D"]),
   ("G#", ["G#", "C", "D#"]), ("A", ["A", "C#", "E"]),
   ("A#", ["A#", "D", "F"]), ("B", ["B", "D#", "F#"]),
   ("Cm", ["C", "D#", "G"]), ("C#m", ["C#", "E", "G#"]),
   ("Dm", ["D", "F", "A"]), ("D#m", ["D#", "F#", "A#"]),
   ("Em", ["E", "G", "B"]), ("Fm", ["F", "G#", "C"]),
   ("F#m", ["F#", "A", "C#"]), ("Gm", ["G", "A#", "D"]),
   ("G#m", ["G#", "B", "D#"]), ("Am", ["A", "C", "E"]),
   ("A#m", ["A#", "C#", "F"]), ("Bm", ["B", "D", "F#"])]

/-- `f32::round`: round half away from zero. -/
def rustRound (q : ℚ) : ℤ :=
  if 0 ≤ q then ⌊q + 1 / 2⌋ else ⌈q - 1 / 2⌉

/-- notes.rs:52: `69.0 + 12.0 * (frequency / 440.0).log2()`. -/
def midiOf (lg : ℚ → ℚ) (f : ℚ) : ℚ := 69 + 12 * lg (f / 440)

/-- notes.rs:52-60: nearest-semitone note name of one frequency;
`(rounded_midi % 12) as usize` panics (`none`) when the remainder is
negative. -/
def noteNameOf (lg : ℚ → ℚ) (f : ℚ) : Option String :=
  let idx := Int.tmod (rustRound (midiOf lg f)) 12
  if 0 ≤ idx then noteNames[idx.toNat]? else none

/-- notes.rs:47-61: collect note names of all frequencies ≥ 20 Hz. -/
def detectNotes (lg : ℚ → ℚ) : List ℚ → Option (List String)
  | [] => some []
  | f :: fs =>
    if f < 20 then detectNotes lg fs
    else
      match noteNameOf lg f with
      | none => none
      | some n => (detectNotes lg fs).map (fun ns => n :: ns)

/-- `Vec::dedup` (notes.rs:67): remove consecutive duplicates. -/
def rustDedup : List String → List String
  | [] => []
  | [a] => [a]
  | a :: b :: rest =>
    if a = b then rustDedup (b :: rest) else a :: rustDedup (b :: rest)

/-- notes.rs:69-77: first database entry whose notes are all detected. -/
def chordScan (notes : List String) : Option String :=
  (chordDatabase.find? (fun p => p.2.all (fun cn => notes.contains cn))).map
    (fun p => p.1 ++ " chord")

/-- Rust `{:+}` formatting of an integer. -/
def formatSignedInt (n : ℤ) : String :=
  if 0 ≤ n then "+" ++ toString n else toString n

/-- notes.rs:79-91: dominant-peak fallback label
`"{note}{octave} ({cents:+}¢)"` computed from the *first* input frequency. -/
def dominantLabel (lg : ℚ → ℚ) (f : ℚ) : Option String :=
  let midi := midiOf lg f
  let rounded := rustRound midi
  let octave := Int.tdiv rounded 12 - 1
  let idx := Int.tmod rounded 12
  let cents := rustRound ((midi - (rounded : ℚ)) * 100)
  if 0 ≤ idx then
    (noteNames[idx.toNat]?).map
      (fun name =>
        name ++ toString octave ++ " (" ++ formatSignedInt cents ++ "¢)")
  else none

/-- notes.rs:42-92, the whole mapping. -/
def frequency_to_note (lg : ℚ → ℚ) (freqs : List ℚ) : Option String :=
  if freqs = [] then some "N/A"
  else
    match detectNotes lg freqs with
    | none => none
    | some detected =>
      if detected = [] then some "N/A"
      else
        match chordScan (rustDedup detected) with
        | some label => some label
        | none => dominantLabel lg (freqs.headD 0)

lemma mem_rustDedup (a : String) : ∀ l : List String, a ∈ rustDedup l ↔ a ∈ l := by
  intro l
  induction l with
  | nil => simp [rustDedup]
  | cons x xs ih =>
    cases xs with
    | nil => simp [rustDedup]
    | cons y ys =>
      by_cases h : x = y
      · simp only [rustDedup, if_pos h, ih]
        subst h
        simp
      · simp only [rustDedup, if_neg h, List.mem_cons, ih]

/-- Rational stand-in for `f32::log2` at the three frequencies of the C
major triad example: `log2(262/440) ≈ -0.7476` (here `-3/4`),
`log2(330/440) ≈ -0.4150` (here `-5/12`), `log2(392/440) ≈ -0.1670` (here
`-1/6`); each is within nearest-semitone rounding tolerance of the true
value, so the derived notes agree with the source's. -/
def lgC : ℚ → ℚ := fun q =>
  if q = 262 / 440 then -3 / 4
  else if q = 330 / 440 then -5 / 12
  else if q = 392 / 440 then -1 / 6
  else 0

/-- Oracle for `f32::log2` at `440/440 = 1`: exactly `0`. -/
def lgA : ℚ → ℚ := fun _ => 0

lemma rustRound_sixty : rustRound 60 = 60 := by
  unfold rustRound
  rw [if_pos (by norm_num : (0 : ℚ) ≤ 60)]
  norm_num [Int.floor_eq_iff]

lemma rustRound_sixtyfour : rustRound 64 = 64 := by
  unfold rustRound
  rw [if_pos (by norm_num : (0 : ℚ) ≤ 64)]
  norm_num [Int.floor_eq_iff]

lemma rustRound_sixtyseven : rustRound 67 = 67 := by
  unfold rustRound
  rw [if_pos (by norm_num : (0 : ℚ) ≤ 67)]
  norm_num [Int.floor_eq_iff]

lemma rustRound_sixtynine : rustRound 69 = 69 := by
  unfold rustRound
  rw [if_pos (by norm_num : (0 : ℚ) ≤ 69)]
  norm_num [Int.floor_eq_iff]

lemma rustRound_zero : rustRound 0 = 0 := by
  unfold rustRound
  rw [if_pos le_rfl]
  norm_num [Int.floor_eq_iff]

lemma noteNameOf_lgC_262 : noteNameOf lgC 262 = some "C" := by
  have hm : midiOf lgC 262 = 60 := by
    unfold midiOf lgC
    norm_num
  unfold noteNameOf
  rw [hm, rustRound_sixty]
  decide

lemma noteNameOf_lgC_330 : noteNameOf lgC 330 = some "E" := by
  have hm : midiOf lgC 330 = 64 := by
    unfold midiOf lgC
    norm_num
  unfold noteNameOf
  rw [hm, rustRound_sixtyfour]
  decide

lemma noteNameOf_lgC_392 : noteNameOf lgC 392 = some "G" := by
  have hm : midiOf lgC 392 = 67 := by
    unfold midiOf lgC
    norm_num
  unfold noteNameOf
  rw [hm, rustRound_sixtyseven]
  decide

lemma noteNameOf_lgA_440 : noteNameOf lgA 440 = some "A" := by
  have hm : midiOf lgA 440 = 69 := by
    unfold midiOf lgA
    norm_num
  unfold noteNameOf
  rw [hm, rustRound_sixtynine]
  decide

lemma detectNotes_lgC :
    detectNotes lgC [262, 330, 392] = some ["C", "E", "G"] := by
  simp only [detectNotes]
  rw [if_neg (by norm_num : ¬ (262 : ℚ) < 20),
    if_neg (by norm_num : ¬ (330 : ℚ) < 20),
    if_neg (by norm_num : ¬ (392 : ℚ) < 20),
    noteNameOf_lgC_262, noteNameOf_lgC_330, noteNameOf_lgC_392]
  rfl

lemma detectNotes_lgA : detectNotes lgA [440] = some ["A"] := by
  simp only [detectNotes]
  rw [if_neg (by norm_num : ¬ (440 : ℚ) < 20), noteNameOf_lgA_440]
  rfl

lemma dominantLabel_lgA : dominantLabel lgA 440 = some "A4 (+0¢)" := by
  have hm : midiOf lgA 440 = 69 := by
    unfold midiOf lgA
    norm_num
  simp only [dominantLabel]
  rw [hm, rustRound_sixtynine]
  have hc : ((69 : ℚ) - ((69 : ℤ) : ℚ)) * 100 = 0 := by
    push_cast
    ring
  rw [hc, rustRound_zero]
  decide

lemma freq2note_lgC :
    frequency_to_note lgC [262, 330, 392] = some "C chord" := by
  unfold frequency_to_note
  rw [if_neg (by simp), detectNotes_lgC]
  decide

lemma freq2note_lgA : frequency_to_note lgA [440] = some "A4 (+0¢)" := by
  unfold frequency_to_note
  rw [if_neg (by simp), detectNotes_lgA]
  have hscan : chordScan (rustDedup ["A"]) = none := by decide
  simp only [hscan]
  rw [show ([440] : List ℚ).headD 0 = 440 from rfl]
  exact dominantLabel_lgA

/-- **C7.** Chord detection: whenever the note names derived from the input
frequencies include all notes of one of the 24 database triads, the label is
`"<chord> chord"` for some matching chord name (first match in the unordered
iteration of the table — order-independent existential); the set
`{C, E, G}` matches only the `"C"` entry, so it yields `"C chord"` for every
iteration order (proved here over the insertion-order model), and a note set
matching no table entry falls back to the dominant-peak label of the first
frequency, e.g. a single A4 gives `"A4 (+0¢)"`. -/
theorem C7_chord_detection (lg : ℚ → ℚ) (freqs : List ℚ)
    (detected : List String)
    (hdet : detectNotes lg freqs = some detected)
    (hne : freqs ≠ [])
    (hsup : ∃ p ∈ chordDatabase, ∀ n ∈ p.2, n ∈ detected) :
    (∃ name triad, (name, triad) ∈ chordDatabase ∧
      (∀ n ∈ triad, n ∈ detected) ∧
      frequency_to_note lg freqs = some (name ++ " chord")) ∧
    (∀ p ∈ chordDatabase,
      (∀ n ∈ p.2, n ∈ (["C", "E", "G"] : List String)) → p.1 = "C") ∧
    frequency_to_note lgC [262, 330, 392] = some "C chord" ∧
    frequency_to_note lgA [440] = some "A4 (+0¢)" := by
  refine ⟨?_, by decide, freq2note_lgC, freq2note_lgA⟩
  have hndet : detected ≠ [] := by
    obtain ⟨p, hp, hsub⟩ := hsup
    have hpne : p.2 ≠ [] := by
      have hall : ∀ q ∈ chordDatabase, q.2 ≠ [] := by decide
      exact hall p hp
    obtain ⟨n, hn⟩ := List.exists_mem_of_ne_nil p.2 hpne
    intro hd
    rw [hd] at hsub
    exact absurd (hsub n hn) (List.not_mem_nil n)
  have hfind : ∃ q, chordDatabase.find?
      (fun p => p.2.all fun cn => (rustDedup detected).contains cn) =
        some q := by
    obtain ⟨p, hp, hsub⟩ := hsup
    have hpred :
        (fun p : String × List String =>
          p.2.all fun cn => (rustDedup detected).contains cn) p = true := by
      simp only [List.all_eq_true]
      intro cn hcn
      simpa [List.contains, List.elem_iff, mem_rustDedup] using hsub cn hcn
    exact Option.isSome_iff_exists.mp
      (List.find?_isSome.mpr ⟨p, hp, hpred⟩)
  obtain ⟨q, hq⟩ := hfind
  have hqmem : q ∈ chordDatabase := List.mem_of_find?_eq_some hq
  have hqpred := List.find?_some hq
  refine ⟨q.1, q.2, by simpa using hqmem, ?_, ?_⟩
  · intro n hn
    have := List.all_eq_true.mp hqpred n hn
    simpa [List.contains, List.elem_iff, mem_rustDedup] using this
  · unfold frequency_to_note
    rw [if_neg hne, hdet]
    simp only []
    rw [if_neg hndet]
    unfold chordScan
    rw [hq]
    rfl

theorem C7_chord_detection_witness :
    (detectNotes lgC [262, 330, 392] = some ["C", "E", "G"]) ∧
    (([262, 330, 392] : List ℚ) ≠ []) ∧
    (∃ p ∈ chordDatabase, ∀ n ∈ p.2, n ∈ (["C", "E", "G"] : List String)) ∧
    (∃ name triad, (name, triad) ∈ chordDatabase ∧
      (∀ n ∈ triad, n ∈ (["C", "E", "G"] : List String)) ∧
      frequency_to_note lgC [262, 330, 392] = some (name ++ " chord")) :=
  ⟨detectNotes_lgC, by simp, ⟨("C", ["C", "E", "G"]), by decide, by decide⟩,
   (C7_chord_detection lgC [262, 330, 392] ["C", "E", "G"] detectNotes_lgC
     (by simp) ⟨("C", ["C", "E", "G"]), by decide, by decide⟩).1⟩

/-- **C9.** For the empty list of frequencies, `frequency_to_note` returns
`"N/A"` immediately: it does not fail and attempts neither chord matching
nor dominant-peak labelling, for every `log2` oracle. -/
theorem C9_empty_frequencies_na (lg : ℚ → ℚ) :
    frequency_to_note lg [] = some "N/A" ∧ detectNotes lg [] = some [] :=
  ⟨rfl, rfl⟩
